import Mathlib

/-!
Shallow embedding of the intrusive red-black tree in `src/rbtree.h` and
verification of the specification claims about it.

Modelling conventions.

* A linked node of the C++ tree is identified with the caller record `v : α`
  stored in it; the key is obtained through the injected policy
  `to_key : α → κ` (`GetKeyForValue`) and keys are compared with the strict
  order of a `LinearOrder κ` (the `Compare` policy, `std::less`).
* The pointer structure hanging below a node is represented by the inductive
  tree `RBNode` (color bit, left child, record, right child); a null child
  pointer is `RBNode.nil`.
* Parent pointers are represented by a zipper: a `Frame` records, for a
  focused subtree, on which side of its parent it hangs (`side`), the
  parent's color bit and record, and the parent's other child.  A `Path` is
  the chain of parents up to the sentinel; `plug` rebuilds the whole tree.
  The iterative fix-up loops of the source, which walk parent pointers,
  become recursion over the `Path`.
* The sentinel (`head_`) is the `rbtree` structure itself: `head_parent`
  models `head_.parent()` (null / the sentinel itself / the root node),
  `head_left` and `head_right` model the cached extreme pointers, and
  `head_is_red` models the sentinel's color bit.  Distinct linked records
  never compare equal (the tree rejects duplicate keys), so pointer equality
  between linked nodes is modelled by equality of the stored records.
* Undefined behavior of the source (dereferencing a null pointer, or a
  failing `assert`) is modelled by returning `none`; the iterator helpers,
  whose loops run over raw pointers, take a fuel argument that is irrelevant
  on any input whose loop terminates.
-/

namespace Rbt

/-- A (sub)tree of linked `rbtree_node`s: color bit `is_red`, left child,
the caller record, right child.  `nil` is a null child pointer. -/
inductive RBNode (α : Type) where
  | nil : RBNode α
  | node (is_red : Bool) (left : RBNode α) (val : α) (right : RBNode α) : RBNode α
deriving DecidableEq, Repr

namespace RBNode

/-- In-order list of the records of a subtree. -/
def inorder {α : Type} : RBNode α → List α
  | .nil => []
  | .node _ l v r => inorder l ++ v :: inorder r

/-- Number of nodes of a subtree. -/
def size {α : Type} : RBNode α → Nat
  | .nil => 0
  | .node _ l _ r => size l + size r + 1

/-- Size of the left child (termination measure helper). -/
def left_size {α : Type} : RBNode α → Nat
  | .nil => 0
  | .node _ l _ _ => size l

/-- Source `node->set_black()` on the root of a subtree (no-op on a null pointer:
the source guards such calls with a null check). -/
def set_black {α : Type} : RBNode α → RBNode α
  | .nil => .nil
  | .node _ l v r => .node false l v r

/-- Source `node->set_red()` on the root of a subtree. -/
def set_red {α : Type} : RBNode α → RBNode α
  | .nil => .nil
  | .node _ l v r => .node true l v r

/-- The test `!w || w->is_black()`: the null-or-black tests of `erase_fixup`. -/
def black_or_nil {α : Type} : RBNode α → Bool
  | .nil => true
  | .node c _ _ _ => !c

/-- Source `is_red()` of a non-null node (false on a null pointer). -/
def is_red_b {α : Type} : RBNode α → Bool
  | .nil => false
  | .node c _ _ _ => c

end RBNode

/-- Which child of its parent a focused subtree is. -/
inductive Side where
  | left : Side
  | right : Side
deriving DecidableEq, Repr

/-- One parent on the path from a focused subtree to the sentinel:
the focused subtree hangs on side `side` of a parent node whose color bit is
`is_red`, whose record is `val` and whose other child is `sib`. -/
structure Frame (α : Type) where
  side : Side
  is_red : Bool
  val : α
  sib : RBNode α
deriving DecidableEq, Repr

/-- The chain of parents of a focused subtree, innermost parent first. -/
abbrev Path (α : Type) := List (Frame α)

/-- Reattach a subtree to its immediate parent frame. -/
def fill {α : Type} (t : RBNode α) (f : Frame α) : RBNode α :=
  match f.side with
  | .left => .node f.is_red t f.val f.sib
  | .right => .node f.is_red f.sib f.val t

/-- Rebuild the whole tree from a focused subtree and its parent path.
This also embeds the reparenting performed by `transplant` / `set_root`:
replacing the subtree at a position is plugging another subtree into the
same path. -/
def plug {α : Type} : RBNode α → Path α → RBNode α
  | t, [] => t
  | t, f :: p => plug (fill t f) p

/-- Source `rotate_left(x)` (lines 296-312), acting on the subtree rooted at `x`;
the reparenting of the pivot is carried out by the surrounding `Path`.
The source asserts `x->right != nullptr`; every call site below establishes
the assertion, so the fallthrough arm is dead code. -/
def rotate_left {α : Type} : RBNode α → RBNode α
  | .node c l x (.node rc rl rv rr) => .node rc (.node c l x rl) rv rr
  | t => t

/-- Source `rotate_right(x)` (lines 314-330), mirror image of `rotate_left`. -/
def rotate_right {α : Type} : RBNode α → RBNode α
  | .node c (.node lc ll lv lr) x r => .node lc ll lv (.node c lr x r)
  | t => t

/-- The field `head_.parent()`: null for the empty tree, the sentinel itself (only
after the buggy `clear()`), or the root node. -/
inductive HeadPtr (α : Type) where
  | null : HeadPtr α
  | self : HeadPtr α
  | node (t : RBNode α) : HeadPtr α
deriving DecidableEq, Repr

/-- A node pointer stored in a sentinel field or linkage field: null, the
sentinel itself, or a linked record. -/
inductive CachePtr (α : Type) where
  | null : CachePtr α
  | self : CachePtr α
  | node (v : α) : CachePtr α
deriving DecidableEq, Repr

/-- The sentinel (`head_`) of a tree: the four fields of `rbtree_node` as
they live in the `rbtree` object (lines 90-96 and 246). -/
structure rbtree (α : Type) where
  head_parent : HeadPtr α
  head_left : CachePtr α
  head_right : CachePtr α
  head_is_red : Bool
deriving DecidableEq, Repr

/-- The freshly constructed tree (lines 587-594): `head_.left = &head_;
head_.right = &head_;` with the default-initialized parent pointer (null)
and color bit (black). -/
def rbtree.init {α : Type} : rbtree α :=
  { head_parent := .null, head_left := .self, head_right := .self, head_is_red := false }

/-- Reading `root()` for a descent: a null root is the empty subtree, while
a self-referential root (left behind by `clear()`) makes the algorithms
dereference the sentinel as if it were a record — undefined behavior,
modelled as `none`. -/
def root_tree {α : Type} : HeadPtr α → Option (RBNode α)
  | .null => some .nil
  | .self => none
  | .node t => some t

/-- The root subtree of a tree state, for stating properties (`.nil` when
the tree has no proper root). -/
def tree_of {α : Type} (s : rbtree α) : RBNode α :=
  match s.head_parent with
  | .node t => t
  | _ => .nil

/-- Source `empty()` (lines 730-733): `root() == nullptr`. -/
def empty {α : Type} [DecidableEq α] (s : rbtree α) : Bool :=
  decide (s.head_parent = HeadPtr.null)

/-- Source `begin()` (lines 718-721): an iterator positioned at `head_.left`. -/
def begin {α : Type} (s : rbtree α) : CachePtr α :=
  s.head_left

/-- Source `end()` (lines 723-726): an iterator positioned at the sentinel. -/
def end_pos {α : Type} (_s : rbtree α) : CachePtr α :=
  CachePtr.self

/-- Outcome of the descent loop shared by `insert` (lines 806-822) and
`insert_for_key` (lines 781-797): either an existing node compares equal to
the probe key, or the descent reaches a null child whose parent chain is
`p`. -/
inductive InsertPos (α : Type) where
  | found (existing : α) : InsertPos α
  | leaf (p : Path α) : InsertPos α
deriving DecidableEq, Repr

/-- The descent loop of `insert` / `insert_for_key`: go left when the probe
key orders before the node's key, right when after, stop on neither.  The
remembered last node `y` is the head of the produced path. -/
def insert_pos {α κ : Type} [LinearOrder κ] (to_key : α → κ) (k : κ) :
    RBNode α → Path α → InsertPos α
  | .nil, p => .leaf p
  | .node c l x r, p =>
    if k < to_key x then insert_pos to_key k l (⟨.left, c, x, r⟩ :: p)
    else if to_key x < k then insert_pos to_key k r (⟨.right, c, x, l⟩ :: p)
    else .found x

/-- Source `insert_fixup(z)` (lines 332-373).  The loop condition
`z->parent() != &head_ && z->parent()->is_red() && z->parent()->parent() != &head_`
is the outer pattern match: it needs at least two frames and a red first
frame.  The uncle `y` is the grandparent's other child, i.e. the second
frame's sibling, in both mirror branches.  In the black-uncle branches the
loop terminates after the rotations (the focused node's new parent is
black), so they rebuild the whole tree; `root()->set_black()` (line 372) is
the outer `set_black`. -/
def insert_fixup {α : Type} : RBNode α → Path α → RBNode α
  | z, f0 :: f1 :: p =>
    if f0.is_red then
      match f1.sib with
      | .node true yl yv yr =>
        -- red uncle: recolor parent and uncle black, grandparent red,
        -- continue from the grandparent (lines 340-344 / 355-360)
        insert_fixup
          (fill (RBNode.set_black (fill z f0))
            ⟨f1.side, true, f1.val, RBNode.set_black (.node true yl yv yr)⟩) p
      | y =>
        match f1.side with
        | .left =>
          -- black or absent uncle, parent on the grandparent's left
          -- (lines 345-352): first rotate a zig-zag into a zig-zig
          let sub := if f0.side = Side.right then rotate_left (fill z f0) else fill z f0
          RBNode.set_black
            (plug (rotate_right (fill (RBNode.set_black sub) ⟨.left, true, f1.val, y⟩)) p)
        | .right =>
          -- mirror image (lines 361-368)
          let sub := if f0.side = Side.left then rotate_right (fill z f0) else fill z f0
          RBNode.set_black
            (plug (rotate_left (fill (RBNode.set_black sub) ⟨.right, true, f1.val, y⟩)) p)
    else RBNode.set_black (plug z (f0 :: f1 :: p))
  | z, p => RBNode.set_black (plug z p)

/-- Source `insert_parent(y, z)` (lines 829-856): link `z` (red, with null
children) under the last visited node `y` (the head of the descent path),
maintain the `head_.left` / `head_.right` caches, and run `insert_fixup`.
The new record `z` becomes the root when the path is empty
(`y == nullptr`).

The source re-compares `to_key(z)` with `to_key(y)` to pick the child slot
rather than reusing the descent's direction.  The two always agree when
`z`'s key is the probe key of the descent (every `insert`, and every
`insert_for_key` whose factory honors its contract); should they disagree,
the assignment `y->left = z` / `y->right = z` overwrites `y`'s other
child, dropping that subtree — modelled by replacing the frame's sibling
with the null pointer in that (contract-violating) case. -/
def insert_parent {α κ : Type} [DecidableEq α] [LinearOrder κ] (to_key : α → κ)
    (s : rbtree α) (p : Path α) (z : α) : rbtree α × α × Bool :=
  match p with
  | [] =>
    -- `set_root(z); head_.left = root(); head_.right = root();`
    ({ s with head_parent := .node (insert_fixup (.node true .nil z .nil) []),
              head_left := .node z, head_right := .node z }, z, true)
  | f :: rest =>
    if to_key z < to_key f.val then
      -- `z->set_parent(y); y->left = z; if (head_.left == y) head_.left = z;`
      let f' : Frame α :=
        ⟨.left, f.is_red, f.val, if f.side = Side.left then f.sib else .nil⟩
      ({ s with head_parent := .node (insert_fixup (.node true .nil z .nil) (f' :: rest)),
                head_left := if s.head_left = CachePtr.node f.val then .node z
                             else s.head_left }, z, true)
    else
      -- `z->set_parent(y); y->right = z; if (head_.right == y) head_.right = z;`
      let f' : Frame α :=
        ⟨.right, f.is_red, f.val, if f.side = Side.right then f.sib else .nil⟩
      ({ s with head_parent := .node (insert_fixup (.node true .nil z .nil) (f' :: rest)),
                head_right := if s.head_right = CachePtr.node f.val then .node z
                              else s.head_right }, z, true)

/-- Source `insert(value)` (lines 803-827).  Returns the updated tree together
with the `{iterator, bool}` pair; `none` models the undefined descent that
would compare the sentinel as a record when `root()` is the sentinel itself
(possible only after `clear()`).  `z->reset()` (line 825) only clears
fields that `insert_parent` overwrites. -/
def insert {α κ : Type} [DecidableEq α] [LinearOrder κ] (to_key : α → κ)
    (s : rbtree α) (v : α) : Option (rbtree α × α × Bool) :=
  match root_tree s.head_parent with
  | none => none
  | some t =>
    match insert_pos to_key (to_key v) t [] with
    | .found x => some (s, x, false)
    | .leaf p => some (insert_parent to_key s p v)

/-- Source `insert_for_key(key, fn)` (lines 778-801): same descent driven by the
probe key; the factory `fn` is invoked only on the not-found path. -/
def insert_for_key {α κ : Type} [DecidableEq α] [LinearOrder κ] (to_key : α → κ)
    (s : rbtree α) (k : κ) (fn : Unit → α) : Option (rbtree α × α × Bool) :=
  match root_tree s.head_parent with
  | none => none
  | some t =>
    match insert_pos to_key k t [] with
    | .found x => some (s, x, false)
    | .leaf p => some (insert_parent to_key s p (fn ()))

/-- Source `find_node(self, key)` (lines 375-394), as a zipper: `none` is the end
position, otherwise the found node together with its parent path. -/
def find_node {α κ : Type} [LinearOrder κ] (to_key : α → κ) (k : κ) :
    RBNode α → Path α → Option (RBNode α × Path α)
  | .nil, _ => none
  | .node c l x r, p =>
    if k < to_key x then find_node to_key k l (⟨.left, c, x, r⟩ :: p)
    else if to_key x < k then find_node to_key k r (⟨.right, c, x, l⟩ :: p)
    else some (.node c l x r, p)

/-- Source `find_minimum(x)` (lines 521-526): leftmost record of a non-null
subtree. -/
def find_minimum {α : Type} : RBNode α → Option α
  | .nil => none
  | .node _ .nil v _ => some v
  | .node _ (.node lc ll lv lr) _ _ => find_minimum (.node lc ll lv lr)

/-- Source `find_maximum(x)` (lines 529-534): rightmost record of a non-null
subtree. -/
def find_maximum {α : Type} : RBNode α → Option α
  | .nil => none
  | .node _ _ v .nil => some v
  | .node _ _ _ (.node rc rl rv rr) => find_maximum (.node rc rl rv rr)

/-- Locate the in-order successor `y = find_minimum(z->right)` used by
`erase_node` (line 428) as a zipper decomposition of `z`'s right subtree:
the path `sp` from that subtree's root down to `y` (all left edges), `y`'s
color bit and record, and `y`'s right child `x`. -/
def split_min {α : Type} : RBNode α → Option (Path α × Bool × α × RBNode α)
  | .nil => none
  | .node c .nil v r => some ([], c, v, r)
  | .node c (.node lc ll lv lr) v r =>
    match split_min (.node lc ll lv lr) with
    | some (sp, yc, yv, x) => some (sp ++ [⟨.left, c, v, r⟩], yc, yv, x)
    | none => none

/-- The exit of the `erase_fixup` loop: `x->set_black()` (line 518) on the
focused node, then the unchanged rest of the tree. -/
def fixup_exit {α : Type} (x : RBNode α) (p : Path α) : RBNode α :=
  plug (RBNode.set_black x) p

/-- The terminal case of `erase_fixup`'s left branch (lines 477-482):
`w->set_red(x->parent()->is_red()); x->parent()->set_black();
if (w->right) w->right->set_black(); rotate_left(x->parent()); x = root();`
followed by the loop exit blackening the root.  `pcol`/`pval` are the
current color bit and record of `x`'s parent, `w` the current sibling and
`p` the parent's own path. -/
def fixup_last_left {α : Type} (x : RBNode α) (pcol : Bool) (pval : α)
    (w : RBNode α) (p : Path α) : RBNode α :=
  match w with
  | .node _ dl dv dr =>
    RBNode.set_black
      (plug (rotate_left (.node false x pval (.node pcol dl dv (RBNode.set_black dr)))) p)
  | .nil => RBNode.set_black (plug (.node false x pval .nil) p)

/-- Mirror image of `fixup_last_left` (lines 509-514). -/
def fixup_last_right {α : Type} (x : RBNode α) (pcol : Bool) (pval : α)
    (w : RBNode α) (p : Path α) : RBNode α :=
  match w with
  | .node _ dl dv dr =>
    RBNode.set_black
      (plug (rotate_right (.node false (.node pcol (RBNode.set_black dl) dv dr) pval x)) p)
  | .nil => RBNode.set_black (plug (.node false .nil pval x) p)

/-- Source `erase_fixup(x)` (lines 448-519).  The loop condition
`x != root() && x->is_black()` is the outer match: an empty path (x is the
root) or a red focus exits the loop into `x->set_black()`.  A `none` result
models a failing `assert(w)` followed by a null dereference, or the null
dereference of `w->left` / `w->right` in the inner rotation case; the
source asserts these pointers instead of checking them.  When the sibling
is red (the first inner case), the same loop iteration continues with the
refreshed sibling and a now-red parent, so the recolor sub-case terminates
at the next loop test; that continuation is inlined below. -/
def erase_fixup {α : Type} : RBNode α → Path α → Option (RBNode α)
  | x, [] => some (fixup_exit x [])
  | .node true l v r, p => some (fixup_exit (.node true l v r) p)
  | .nil, _ => none
  | .node false xl xv xr, f0 :: p =>
    let x : RBNode α := .node false xl xv xr
    match f0.side with
    | .left =>
      -- x == x->parent()->left (lines 452-483)
      match f0.sib with
      | .nil => none
      | .node true wl wv wr =>
        -- sibling red (lines 456-462): recolor, rotate_left(parent),
        -- refresh w; afterwards the parent is red
        (match wl with
         | .nil => none
         | .node w2c w2l w2v w2r =>
           let w : RBNode α := .node w2c w2l w2v w2r
           let p' : Path α := ⟨.left, false, wv, wr⟩ :: p
           if RBNode.black_or_nil w2l && RBNode.black_or_nil w2r then
             -- both nephews black: w->set_red(); x = x->parent();
             -- the parent is red here, so the loop exits and blackens it
             some (fixup_exit (.node true x f0.val (RBNode.set_red w)) p')
           else if RBNode.black_or_nil w2r then
             match w2l with
             | .nil => none
             | .node _ al av ar =>
               some (fixup_last_left x true f0.val
                 (rotate_right (RBNode.set_red (.node w2c (.node false al av ar) w2v w2r))) p')
           else
             some (fixup_last_left x true f0.val w p'))
      | .node false wl wv wr =>
        let w : RBNode α := .node false wl wv wr
        if RBNode.black_or_nil wl && RBNode.black_or_nil wr then
          -- both nephews black (lines 464-467): w->set_red(); x = x->parent()
          erase_fixup (.node f0.is_red x f0.val (RBNode.set_red w)) p
        else if RBNode.black_or_nil wr then
          -- near nephew red (lines 469-475): w->left->set_black();
          -- w->set_red(); rotate_right(w); refresh w
          match wl with
          | .nil => none
          | .node _ al av ar =>
            some (fixup_last_left x f0.is_red f0.val
              (rotate_right (RBNode.set_red (.node false (.node false al av ar) wv wr))) p)
        else
          some (fixup_last_left x f0.is_red f0.val w p)
    | .right =>
      -- mirror image (lines 484-516)
      match f0.sib with
      | .nil => none
      | .node true wl wv wr =>
        (match wr with
         | .nil => none
         | .node w2c w2l w2v w2r =>
           let w : RBNode α := .node w2c w2l w2v w2r
           let p' : Path α := ⟨.right, false, wv, wl⟩ :: p
           if RBNode.black_or_nil w2r && RBNode.black_or_nil w2l then
             some (fixup_exit (.node true (RBNode.set_red w) f0.val x) p')
           else if RBNode.black_or_nil w2l then
             match w2r with
             | .nil => none
             | .node _ al av ar =>
               some (fixup_last_right x true f0.val
                 (rotate_left (RBNode.set_red (.node w2c w2l w2v (.node false al av ar)))) p')
           else
             some (fixup_last_right x true f0.val w p'))
      | .node false wl wv wr =>
        let w : RBNode α := .node false wl wv wr
        if RBNode.black_or_nil wr && RBNode.black_or_nil wl then
          erase_fixup (.node f0.is_red (RBNode.set_red w) f0.val x) p
        else if RBNode.black_or_nil wl then
          match wr with
          | .nil => none
          | .node _ al av ar =>
            some (fixup_last_right x f0.is_red f0.val
              (rotate_left (RBNode.set_red (.node false wl wv (.node false al av ar)))) p)
        else
          some (fixup_last_right x f0.is_red f0.val w p)

/-- The pointer stored in a parent's child slot for a subtree. -/
def child_ptr {α : Type} : RBNode α → CachePtr α
  | .nil => .null
  | .node _ _ v _ => .node v

/-- The structural part of `erase_node(z)` (lines 421-445) on the focused
node `z = node zc zl zv zr` with parent path `p`: unlink `z` and run the
conditional `erase_fixup`, producing the new root subtree.

With no or one child, the child `x` is transplanted into `z`'s slot.  With
two children the successor `y` is spliced out of the right subtree
(`transplant(y, y->right)`), adopts `z`'s children and color
(`y->set_red(z->is_red())`) and is transplanted into `z`'s slot; the
fix-up then starts at `x`'s position inside the rebuilt right subtree.
`erase_fixup` is invoked only when the spliced-out color was black *and
`x` is non-null* (line 444): a black spliced-out node with a null `x`
skips the fix-up entirely. -/
def erase_node_tree {α : Type} (zc : Bool) (zl : RBNode α) (_zv : α)
    (zr : RBNode α) (p : Path α) : Option (RBNode α) :=
  match zl, zr with
  | .nil, _ =>
    -- `x = z->right; transplant(z, z->right);`
    if zc then some (plug zr p)
    else
      match zr with
      | .nil => some (plug RBNode.nil p)
      | x => erase_fixup x p
  | _, .nil =>
    -- `x = z->left; transplant(z, z->left);`
    if zc then some (plug zl p) else erase_fixup zl p
  | _, _ =>
    match split_min zr with
    | none => none
    | some (sp, yc, yv, x) =>
      let p' : Path α := sp ++ ⟨.right, zc, yv, zl⟩ :: p
      if yc then some (plug x p')
      else
        match x with
        | .nil => some (plug RBNode.nil p')
        | xx => erase_fixup xx p'

/-- Source `erase_node(z)` (lines 408-446): the cache maintenance of lines
414-419 (reading the pre-removal tree) around the structural removal.
The temporary `head_.set_parent(x)` of line 415 is immediately overwritten
by the `transplant` of the root slot and is not modelled separately; the
root becomes whatever `erase_node_tree` rebuilt. -/
def erase_node {α : Type} [DecidableEq α] (s : rbtree α) (zc : Bool)
    (zl : RBNode α) (zv : α) (zr : RBNode α) (p : Path α) : Option (rbtree α) :=
  let zparent : CachePtr α := match p with | [] => .self | f :: _ => .node f.val
  let hl : CachePtr α :=
    if s.head_left = CachePtr.node zv then
      match zr, find_minimum zr with
      | .nil, _ => zparent
      | _, some m => .node m
      | _, none => .null
    else s.head_left
  let hr : CachePtr α :=
    if s.head_right = CachePtr.node zv then
      match zl, find_maximum zl with
      | .nil, _ => zparent
      | _, some m => .node m
      | _, none => .null
    else s.head_right
  match erase_node_tree zc zl zv zr p with
  | none => none
  | some .nil => some { s with head_parent := .null, head_left := hl, head_right := hr }
  | some t => some { s with head_parent := .node t, head_left := hl, head_right := hr }

/-- The four linkage fields of a `rbtree_node` (lines 90-96), for stating
what `erase` returns. -/
structure node_fields (α : Type) where
  parent : CachePtr α
  left : CachePtr α
  right : CachePtr α
  is_red : Bool
deriving DecidableEq, Repr

/-- Source `reset_node(node)` (lines 536-541): null the parent, left and right
fields, leaving the color bit alone. -/
def reset_node {α : Type} (n : node_fields α) : node_fields α :=
  { n with parent := .null, left := .null, right := .null }

/-- Source `unlinked()` (lines 66-69): all three linkage pointers are null. -/
def unlinked {α : Type} [DecidableEq α] (n : node_fields α) : Bool :=
  decide (n.parent = CachePtr.null) && decide (n.left = CachePtr.null)
    && decide (n.right = CachePtr.null)

/-- Source `erase(key)` (lines 858-867): locate the node, report `none` (a null
reference) when absent, otherwise `erase_node` + `reset_node` and return
the detached record with its reset linkage fields. -/
def erase {α κ : Type} [DecidableEq α] [LinearOrder κ] (to_key : α → κ)
    (s : rbtree α) (k : κ) : Option (rbtree α × Option (α × node_fields α)) :=
  match root_tree s.head_parent with
  | none => none
  | some t =>
    match find_node to_key k t [] with
    | none => some (s, none)
    | some (.nil, _) => none
    | some (.node zc zl zv zr, p) =>
      match erase_node s zc zl zv zr p with
      | none => none
      | some s' =>
        some (s', some (zv,
          reset_node ⟨(match p with | [] => .self | f :: _ => .node f.val),
            child_ptr zl, child_ptr zr, zc⟩))

/-- Source `clear()` (lines 882-888): `head_.set_parent(&head_); head_.left =
nullptr; head_.right = nullptr;` — note the parent is pointed at the
sentinel itself, not nulled, and the cached extremes become null rather
than the sentinel. -/
def clear {α : Type} (s : rbtree α) : rbtree α :=
  { s with head_parent := .self, head_left := .null, head_right := .null }

/-- Source `clear_and_dispose_helper(disposer, x)` (lines 545-564): the
rotation-threaded destructive traversal; the result is the sequence of
records passed to the disposer, in disposal order. -/
def clear_and_dispose_helper {α : Type} : RBNode α → List α
  | .nil => []
  | .node c (.node lc ll lv lr) v r =>
    -- right rotate until the current node has no left child
    clear_and_dispose_helper (.node lc ll lv (.node c lr v r))
  | .node _ .nil v r => v :: clear_and_dispose_helper r
termination_by t => (RBNode.size t, RBNode.left_size t)
decreasing_by
  all_goals simp [Prod.lex_def, RBNode.size, RBNode.left_size]
  all_goals omega

/-- Source `clear_and_dispose(disposer)` (lines 892-901): dispose every record,
then `set_root(nullptr); head_.left = nullptr; head_.right = nullptr;`.
`none` models walking from the sentinel itself (root left by `clear()`). -/
def clear_and_dispose {α : Type} (s : rbtree α) : Option (rbtree α × List α) :=
  match root_tree s.head_parent with
  | none => none
  | some t =>
    some ({ s with head_parent := .null, head_left := .null, head_right := .null },
      clear_and_dispose_helper t)

/-- Source `swap(other)` (lines 903-941).  The policy objects are stateless in the
model.  The `assert(head_.is_red() == other.head_.is_red())` of line 909 is
modelled by returning `none` when it fails; neither branch ever writes a
color bit. -/
def swap {α : Type} [DecidableEq α] (s other : rbtree α) : Option (rbtree α × rbtree α) :=
  let give (dst : rbtree α) (src : rbtree α) : rbtree α :=
    { dst with head_parent := src.head_parent, head_left := src.head_left,
               head_right := src.head_right }
  let emptied (dst : rbtree α) : rbtree α :=
    { dst with head_parent := .null, head_left := .self, head_right := .self }
  if s.head_parent ≠ HeadPtr.null ∧ other.head_parent ≠ HeadPtr.null then
    if s.head_is_red = other.head_is_red then some (give s other, give other s)
    else none
  else if s.head_parent ≠ HeadPtr.null then some (emptied s, give other s)
  else if other.head_parent ≠ HeadPtr.null then some (give s other, emptied other)
  else some (s, other)

/-- Predicate `p` holds for every record of a subtree. -/
def all_b {α : Type} (p : α → Bool) : RBNode α → Bool
  | .nil => true
  | .node _ l v r => p v && all_b p l && all_b p r

/-- BST ordering (spec §3 invariant 1): every key of a left subtree orders
strictly before the node's key and every key of a right subtree strictly
after, at every node. -/
def ordered {α κ : Type} [LinearOrder κ] (to_key : α → κ) : RBNode α → Bool
  | .nil => true
  | .node _ l v r =>
    all_b (fun x => decide (to_key x < to_key v)) l
      && all_b (fun x => decide (to_key v < to_key x)) r
      && ordered to_key l && ordered to_key r

/-- Spec §3 invariant 2: the root is black (or the tree is empty). -/
def root_black {α : Type} : RBNode α → Bool
  | .nil => true
  | .node c _ _ _ => !c

/-- Spec §3 invariant 3: no red node has a red child. -/
def no_red_red {α : Type} : RBNode α → Bool
  | .nil => true
  | .node c l _ r =>
    (!(c && (RBNode.is_red_b l || RBNode.is_red_b r)))
      && no_red_red l && no_red_red r

/-- The common count of black nodes on every path from the root of a
subtree to a missing child, `none` when the counts disagree
(spec §3 invariant 4). -/
def black_height {α : Type} : RBNode α → Option Nat
  | .nil => some 0
  | .node c l _ r =>
    match black_height l, black_height r with
    | some a, some b => if a = b then some (a + (if c then 0 else 1)) else none
    | _, _ => none

/-- The three structural red-black invariants of spec §3 / §8. -/
def rb_structural_invariant {α : Type} (t : RBNode α) : Bool :=
  root_black t && no_red_red t && (black_height t).isSome

/-- The full data-model invariant: BST ordering plus the structural
red-black invariants. -/
def rb_valid {α κ : Type} [LinearOrder κ] (to_key : α → κ) (t : RBNode α) : Bool :=
  ordered to_key t && rb_structural_invariant t

/-- A public mutating operation of the container. -/
inductive Op (α κ : Type) where
  | ins (v : α) : Op α κ
  | ers (k : κ) : Op α κ
  | clr : Op α κ
  | clrd : Op α κ
deriving DecidableEq, Repr

/-- Run one public operation, keeping only the tree state; `none` is
undefined behavior inside the operation. -/
def run_op {α κ : Type} [DecidableEq α] [LinearOrder κ] (to_key : α → κ)
    (s : rbtree α) : Op α κ → Option (rbtree α)
  | .ins v => (insert to_key s v).map (·.1)
  | .ers k => (erase to_key s k).map (·.1)
  | .clr => some (clear s)
  | .clrd => (clear_and_dispose s).map (·.1)

/-- Run a sequence of public operations from a given state. -/
def run_ops {α κ : Type} [DecidableEq α] [LinearOrder κ] (to_key : α → κ) :
    rbtree α → List (Op α κ) → Option (rbtree α)
  | s, [] => some s
  | s, op :: ops =>
    match run_op to_key s op with
    | none => none
    | some s' => run_ops to_key s' ops

/-! ### The iterator (lines 100-220)

`rbtree_iterator` walks raw `parent`/`left`/`right` pointers, treating the
sentinel like any other node.  To evaluate it the pointer graph that the
C++ objects would form is reconstructed from a tree state: every linked
record yields a pointer triple, and the sentinel's triple comes from the
`head_` fields. -/

/-- A raw node pointer: null, the sentinel, or a linked record. -/
inductive NPtr (α : Type) where
  | null : NPtr α
  | head : NPtr α
  | node (v : α) : NPtr α
deriving DecidableEq, Repr

/-- The three pointer fields of one `rbtree_node`. -/
structure NodeRec (α : Type) where
  left : NPtr α
  right : NPtr α
  parent : NPtr α
deriving DecidableEq, Repr

/-- View a sentinel field as a raw pointer. -/
def np_of_cache {α : Type} : CachePtr α → NPtr α
  | .null => .null
  | .self => .head
  | .node v => .node v

/-- The raw pointer to the root of a subtree. -/
def np_of_child {α : Type} : RBNode α → NPtr α
  | .nil => .null
  | .node _ _ v _ => .node v

/-- View `head_.parent()` as a raw pointer. -/
def np_of_head_parent {α : Type} : HeadPtr α → NPtr α
  | .null => .null
  | .self => .head
  | .node t => np_of_child t

/-- The pointer triple of the record `v` inside a subtree whose root's
parent is `par`. -/
def find_rec {α : Type} [DecidableEq α] (par : NPtr α) :
    RBNode α → α → Option (NodeRec α)
  | .nil, _ => none
  | .node _ l x r, v =>
    if v = x then some ⟨np_of_child l, np_of_child r, par⟩
    else
      match find_rec (.node x) l v with
      | some n => some n
      | none => find_rec (.node x) r v

/-- Dereference a raw pointer in the graph of a tree state (a junk triple
for a dangling pointer — the modelled loops never produce one on the
inputs evaluated below). -/
def get_rec {α : Type} [DecidableEq α] (s : rbtree α) : NPtr α → NodeRec α
  | .null => ⟨.null, .null, .null⟩
  | .head => ⟨np_of_cache s.head_left, np_of_cache s.head_right,
              np_of_head_parent s.head_parent⟩
  | .node v =>
    match find_rec .head (tree_of s) v with
    | some n => n
    | none => ⟨.null, .null, .null⟩

/-- The loop `while (next->left) next = next->left` (lines 123-124). -/
def descend_left {α : Type} [DecidableEq α] (s : rbtree α) :
    Nat → NPtr α → NPtr α
  | 0, p => p
  | fuel + 1, p =>
    match (get_rec s p).left with
    | .null => p
    | l => descend_left s fuel l

/-- The loop `while (next->right) next = next->right` (lines 147-148). -/
def descend_right {α : Type} [DecidableEq α] (s : rbtree α) :
    Nat → NPtr α → NPtr α
  | 0, p => p
  | fuel + 1, p =>
    match (get_rec s p).right with
    | .null => p
    | r => descend_right s fuel r

/-- The parent-climbing loop of `next` (lines 126-134). -/
def next_climb {α : Type} [DecidableEq α] (s : rbtree α) :
    Nat → NPtr α → NPtr α → NPtr α
  | 0, _, nx => nx
  | fuel + 1, curr, nx =>
    if (get_rec s nx).right = curr then next_climb s fuel nx (get_rec s nx).parent
    else if (get_rec s curr).right = nx then curr
    else nx

/-- The parent-climbing loop of `prev` (lines 150-158).  Note that the
final test is `curr->right == next` (line 157), exactly as in the source:
it is not the mirror image of the corresponding test in `next`. -/
def prev_climb {α : Type} [DecidableEq α] (s : rbtree α) :
    Nat → NPtr α → NPtr α → NPtr α
  | 0, _, nx => nx
  | fuel + 1, curr, nx =>
    if (get_rec s nx).left = curr then prev_climb s fuel nx (get_rec s nx).parent
    else if (get_rec s curr).right = nx then curr
    else nx

/-- Source `rbtree_iterator::next(curr)` (lines 116-138): `operator++`. -/
def iter_next {α : Type} [DecidableEq α] (s : rbtree α) (fuel : Nat)
    (curr : NPtr α) : NPtr α :=
  match (get_rec s curr).right with
  | .null => next_climb s fuel curr (get_rec s curr).parent
  | r => descend_left s fuel r

/-- Source `rbtree_iterator::prev(curr)` (lines 140-162): `operator--`. -/
def iter_prev {α : Type} [DecidableEq α] (s : rbtree α) (fuel : Nat)
    (curr : NPtr α) : NPtr α :=
  match (get_rec s curr).left with
  | .null => prev_climb s fuel curr (get_rec s curr).parent
  | l => descend_right s fuel l

/-! ### `clone` (lines 613-694) -/

/-- Result of a successful clone walk over a subtree: the mirror subtree,
the last assignments the walk made to the new tree's `head_.left` /
`head_.right` caches (if any), and the records produced by the cloner in
call order. -/
structure CloneOk (α : Type) where
  t : RBNode α
  hl : Option α
  hr : Option α
  cloned : List α
deriving DecidableEq, Repr

/-- Result of a failed clone walk: the cloner's error, the partially built
mirror subtree at the moment of failure, and the records the cloner had
already produced. -/
structure CloneFail (ε α : Type) where
  err : ε
  built : RBNode α
  cloned : List α
deriving Repr

/-- Pointer comparison of a child pointer with a sentinel cache field
(`node_orig->left == head_.left` and its mirror, lines 667 and 678). -/
def ptr_eq_cache {α : Type} [DecidableEq α] : RBNode α → CachePtr α → Bool
  | .nil, .null => true
  | .node _ _ v _, .node w => decide (v = w)
  | _, _ => false

/-- The iterative pre-order clone walk (lines 645-687), recursively: a node
is cloned on the step that enters it (`entered` tells from which side), its
color bit is copied (`node_clone->set_red(node_orig->is_red())`), and after
cloning a node entered leftward the source checks
`node_orig->left == head_.left` — the just-entered node's *left child*
against the cached minimum — to decide whether to repoint the new tree's
minimum cache at this clone (mirrored for the maximum).  On a cloner
failure the partially built mirror is exactly the nodes cloned so far. -/
def clone_go {α ε : Type} [DecidableEq α] (cloner : α → Except ε α)
    (hl hr : CachePtr α) : Option Side → RBNode α → Except (CloneFail ε α) (CloneOk α)
  | _, .nil => .ok ⟨.nil, none, none, []⟩
  | entered, .node c l v r =>
    match cloner v with
    | .error e => .error ⟨e, .nil, []⟩
    | .ok v' =>
      let myhl : Option α :=
        if decide (entered = some Side.left) && ptr_eq_cache l hl then some v' else none
      let myhr : Option α :=
        if decide (entered = some Side.right) && ptr_eq_cache r hr then some v' else none
      match clone_go cloner hl hr (some .left) l with
      | .error f => .error ⟨f.err, .node c f.built v' .nil, v' :: f.cloned⟩
      | .ok okl =>
        match clone_go cloner hl hr (some .right) r with
        | .error f => .error ⟨f.err, .node c okl.t v' f.built, v' :: okl.cloned ++ f.cloned⟩
        | .ok okr =>
          .ok ⟨.node c okl.t v' okr.t,
               okr.hl <|> okl.hl <|> myhl,
               okr.hr <|> okl.hr <|> myhr,
               v' :: okl.cloned ++ okr.cloned⟩

/-- Source `clone(cloner, disposer)` (lines 613-694).  An empty tree returns a
fresh tree.  On a cloner failure the `finally` block walks the partial
mirror with the same rotation-threaded traversal as
`clear_and_dispose_helper` (lines 626-643), passing every already-cloned
record to the disposer, and the error is re-signaled together with that
disposal sequence.  On success the new tree's caches are the walk's last
assignments, defaulting to the root clone they were initialized with
(lines 653-655).  The outer `none` models the undefined descent from a
self-referential root. -/
def clone {α ε : Type} [DecidableEq α] (s : rbtree α) (cloner : α → Except ε α) :
    Option (Except (ε × List α) (rbtree α)) :=
  match root_tree s.head_parent with
  | none => none
  | some .nil => some (.ok rbtree.init)
  | some t =>
    match clone_go cloner s.head_left s.head_right none t with
    | .error f => some (.error (f.err, clear_and_dispose_helper f.built))
    | .ok ok =>
      match ok.t with
      | .nil => some (.ok rbtree.init)
      | .node c cl cv cr =>
        some (.ok { head_parent := .node (RBNode.node c cl cv cr),
                    head_left := .node (ok.hl.getD cv),
                    head_right := .node (ok.hr.getD cv),
                    head_is_red := false })

/-! ### Concrete states used by the claim theorems -/

/-- The tree after inserting 1, 2, 3 into a fresh tree: a black root 2 with
red children 1 and 3. -/
def t123 : rbtree Nat :=
  (run_ops id rbtree.init [Op.ins 1, Op.ins 2, Op.ins 3]).getD rbtree.init

/-- The tree after inserting 1 into a fresh tree. -/
def one_node_tree : rbtree Nat :=
  (run_ops id rbtree.init [Op.ins 1]).getD rbtree.init

/-- An operation sequence on which `erase_fixup` dereferences a null
sibling: the earlier fix-up-skipping erases of black leaves corrupt the
black-height invariant until `erase(4)` enters the fix-up loop with
`x->parent()->left == nullptr`, failing `assert(w)` (line 486). -/
def c2_ops : List (Op Nat Nat) :=
  [.ins 2, .ins 4, .ins 5, .ins 6, .ers 2, .ins 3, .ins 1, .ins 2,
   .ers 1, .ers 2, .ers 4]

/-- C1: after the mutating operations `insert 1,2,3,4` the invariants hold,
but `erase 1` removes a black leaf, `erase_node` skips `erase_fixup`
because `x == nullptr` (line 444), and the resulting tree has unequal black
counts on its root-to-missing-child paths: the black-height invariant is
violated while ordering, root-blackness and the red rule still hold. -/
theorem c1_erase_black_leaf_breaks_black_height :
    (run_ops id rbtree.init [Op.ins 1, Op.ins 2, Op.ins 3, Op.ins 4]).map
        (fun s => rb_valid id (tree_of s)) = some true
    ∧ (run_ops id rbtree.init [Op.ins 1, Op.ins 2, Op.ins 3, Op.ins 4, Op.ers 1]).map
        (fun s => (ordered id (tree_of s), root_black (tree_of s),
          no_red_red (tree_of s), (black_height (tree_of s)).isSome))
      = some (true, true, true, false) := by decide

/-- C2: the insert/erase sequence `c2_ops`, started from an empty tree,
aborts inside `erase_fixup` — the sibling pointer `w` is null, so
`assert(w)` fails and `w->is_red()` dereferences a null pointer — hence no
in-order traversal after this sequence exists at all.  Up to the final
operation the tree was still correctly ordered. -/
theorem c2_sequence_dies_in_erase_fixup :
    run_ops id rbtree.init c2_ops = none
    ∧ (run_ops id rbtree.init c2_ops.dropLast).map
        (fun s => ordered id (tree_of s)) = some true := by decide

/-- C3: `clear()` sets `head_.parent` to the sentinel itself instead of
null (line 885), so afterwards `empty()` is false and `begin() != end()`
even though no node is linked any more. -/
theorem c3_clear_leaves_tree_non_empty :
    run_ops id rbtree.init [Op.ins 1] = some one_node_tree
    ∧ empty (clear one_node_tree) = false
    ∧ (clear one_node_tree).head_parent = HeadPtr.self
    ∧ begin (clear one_node_tree) ≠ end_pos (clear one_node_tree) := by decide

/-- C4: after the public operation `clear_and_dispose` the tree is empty
(`empty()` is true) but both sentinel caches are null rather than the
sentinel itself, so `begin() != end()`; the same nulling happens in
`clear()` (lines 886-887 and 899-900). -/
theorem c4_clear_and_dispose_nulls_the_caches :
    (clear_and_dispose one_node_tree).map
        (fun q => (empty q.1, q.1.head_left, q.1.head_right,
          decide (begin q.1 = end_pos q.1)))
      = some (true, CachePtr.null, CachePtr.null, false) := by decide

/-- C5: on the reachable tree `{1, 2, 3}` (black root 2), the maximum is 3
(cached in `head_.right` and last in the in-order traversal), but
decrementing an iterator at `end()` follows `head_.left` — the *minimum*
cache — and descends right (lines 144-148), landing on 1.  Incrementing
from the maximum does reach `end()`. -/
theorem c5_decrement_from_end_misses_maximum :
    run_ops id rbtree.init [Op.ins 1, Op.ins 2, Op.ins 3] = some t123
    ∧ t123.head_right = CachePtr.node 3
    ∧ (RBNode.inorder (tree_of t123)).getLast? = some 3
    ∧ iter_prev t123 9 NPtr.head = NPtr.node 1
    ∧ iter_next t123 9 (NPtr.node 3) = NPtr.head := by decide

/-- C6: cloning the tree `{1, 2, 3}` (minimum 1, maximum 3) with a cloner
that maps `v` to `v + 10` duplicates shape and colors exactly, but both
sentinel caches of the clone reference the clone of the *root* 2: the
walk's cache checks compare `node_orig->left`/`node_orig->right` (the
just-entered node's child) with the cached extreme (lines 667, 678), so
the assignment never fires for the extreme itself. -/
theorem c6_clone_caches_miss_the_extremes :
    (clone t123 (fun v => (Except.ok (v + 10) : Except Unit Nat))).map
        (fun e => match e with
          | .ok c => some (tree_of c, c.head_left, c.head_right)
          | .error _ => none)
      = some (some (RBNode.node false
            (RBNode.node true RBNode.nil 11 RBNode.nil) 12
            (RBNode.node true RBNode.nil 13 RBNode.nil),
          CachePtr.node 12, CachePtr.node 12))
    ∧ find_minimum (tree_of t123) = some 1
    ∧ find_maximum (tree_of t123) = some 3 := by decide

/-! ### C10: the sentinel's color bit is never written -/

theorem insert_parent_head_is_red {α κ : Type} [DecidableEq α] [LinearOrder κ]
    (to_key : α → κ) (s : rbtree α) (p : Path α) (z : α) :
    (insert_parent to_key s p z).1.head_is_red = s.head_is_red := by
  unfold insert_parent
  cases p with
  | nil => rfl
  | cons f p => dsimp only; split <;> rfl

theorem insert_head_is_red {α κ : Type} [DecidableEq α] [LinearOrder κ]
    (to_key : α → κ) {s s' : rbtree α} {v x : α} {b : Bool}
    (h : insert to_key s v = some (s', x, b)) : s'.head_is_red = s.head_is_red := by
  cases hrt : root_tree s.head_parent with
  | none => simp [insert, hrt] at h
  | some t =>
    cases hpos : insert_pos to_key (to_key v) t [] with
    | found x0 =>
      simp only [insert, hrt, hpos, Option.some.injEq, Prod.mk.injEq] at h
      rw [← h.1]
    | leaf pth =>
      simp only [insert, hrt, hpos, Option.some.injEq] at h
      have hp := insert_parent_head_is_red to_key s pth v
      rw [h] at hp
      exact hp

theorem erase_node_head_is_red {α : Type} [DecidableEq α] {s s' : rbtree α}
    {zc : Bool} {zl zr : RBNode α} {zv : α} {p : Path α}
    (h : erase_node s zc zl zv zr p = some s') : s'.head_is_red = s.head_is_red := by
  cases htr : erase_node_tree zc zl zv zr p with
  | none => simp [erase_node, htr] at h
  | some t =>
    cases t with
    | nil =>
      simp only [erase_node, htr, Option.some.injEq] at h
      rw [← h]
    | node c l v r =>
      simp only [erase_node, htr, Option.some.injEq] at h
      rw [← h]

theorem erase_head_is_red {α κ : Type} [DecidableEq α] [LinearOrder κ]
    (to_key : α → κ) {s s' : rbtree α} {k : κ} {res : Option (α × node_fields α)}
    (h : erase to_key s k = some (s', res)) : s'.head_is_red = s.head_is_red := by
  cases hrt : root_tree s.head_parent with
  | none => simp [erase, hrt] at h
  | some t =>
    cases hf : find_node to_key k t [] with
    | none =>
      simp only [erase, hrt, hf, Option.some.injEq, Prod.mk.injEq] at h
      rw [← h.1]
    | some zp =>
      obtain ⟨z, p⟩ := zp
      cases z with
      | nil => simp [erase, hrt, hf] at h
      | node zc zl zv zr =>
        cases hen : erase_node s zc zl zv zr p with
        | none => simp [erase, hrt, hf, hen] at h
        | some s1 =>
          simp only [erase, hrt, hf, hen, Option.some.injEq, Prod.mk.injEq] at h
          rw [← h.1]
          exact erase_node_head_is_red hen

theorem run_op_head_is_red {α κ : Type} [DecidableEq α] [LinearOrder κ]
    (to_key : α → κ) {s s' : rbtree α} {op : Op α κ}
    (h : run_op to_key s op = some s') : s'.head_is_red = s.head_is_red := by
  cases op with
  | ins v =>
    cases hi : insert to_key s v with
    | none => simp [run_op, hi] at h
    | some trip =>
      obtain ⟨s1, x, b⟩ := trip
      simp only [run_op, hi, Option.map_some', Option.some.injEq] at h
      rw [← h]
      exact insert_head_is_red to_key hi
  | ers k =>
    cases hi : erase to_key s k with
    | none => simp [run_op, hi] at h
    | some pr =>
      obtain ⟨s1, res⟩ := pr
      simp only [run_op, hi, Option.map_some', Option.some.injEq] at h
      rw [← h]
      exact erase_head_is_red to_key hi
  | clr =>
    simp only [run_op, clear, Option.some.injEq] at h
    rw [← h]
  | clrd =>
    cases hrt : root_tree s.head_parent with
    | none => simp [run_op, clear_and_dispose, hrt] at h
    | some t =>
      simp only [run_op, clear_and_dispose, hrt, Option.map_some', Option.some.injEq] at h
      rw [← h]

theorem run_ops_head_is_red {α κ : Type} [DecidableEq α] [LinearOrder κ]
    (to_key : α → κ) : ∀ (ops : List (Op α κ)) (s s' : rbtree α),
    run_ops to_key s ops = some s' → s'.head_is_red = s.head_is_red
  | [], s, s' => by
    intro h
    simp only [run_ops, Option.some.injEq] at h
    rw [← h]
  | op :: ops, s, s' => by
    intro h
    simp only [run_ops] at h
    split at h
    · exact absurd h (by simp)
    · next s1 hop =>
      rw [run_ops_head_is_red to_key ops s1 s' h, run_op_head_is_red to_key hop]

/-- C10: every tree state reachable from a freshly constructed tree through
the public operations has a black sentinel (the color bit is initialized
black and no operation writes it), `swap` on two reachable trees therefore
never fails its color assertion, and a tree produced by `clone` also has a
black sentinel. -/
theorem c10_sentinel_always_black {α κ : Type} [DecidableEq α] [LinearOrder κ]
    (to_key : α → κ) (ops1 ops2 : List (Op α κ)) (s1 s2 : rbtree α)
    (h1 : run_ops to_key rbtree.init ops1 = some s1)
    (h2 : run_ops to_key rbtree.init ops2 = some s2) :
    s1.head_is_red = false ∧ s2.head_is_red = false
    ∧ (swap s1 s2).isSome = true
    ∧ ∀ (ε : Type) (cloner : α → Except ε α) (c : rbtree α),
        clone s1 cloner = some (Except.ok c) → c.head_is_red = false := by
  have hr1 : s1.head_is_red = false := run_ops_head_is_red to_key ops1 _ _ h1
  have hr2 : s2.head_is_red = false := run_ops_head_is_red to_key ops2 _ _ h2
  refine ⟨hr1, hr2, ?_, ?_⟩
  · unfold swap
    dsimp only
    split
    · rw [if_pos (by rw [hr1, hr2])]; rfl
    · split
      · rfl
      · split <;> rfl
  · intro ε cloner c hc
    unfold clone at hc
    split at hc
    · exact absurd hc (by simp)
    · simp only [Option.some.injEq, Except.ok.injEq] at hc
      rw [← hc]
      rfl
    · split at hc
      · exact absurd hc (by simp)
      · split at hc
        · simp only [Option.some.injEq, Except.ok.injEq] at hc
          rw [← hc]
          rfl
        · simp only [Option.some.injEq, Except.ok.injEq] at hc
          rw [← hc]

/-- Witness for C10 at the concrete operation lists `[insert 1]` and `[]`
over `Nat` keys. -/
theorem c10_sentinel_always_black_witness :
    one_node_tree.head_is_red = false ∧ (rbtree.init (α := Nat)).head_is_red = false
    ∧ (swap one_node_tree rbtree.init).isSome = true
    ∧ ∀ (ε : Type) (cloner : Nat → Except ε Nat) (c : rbtree Nat),
        clone one_node_tree cloner = some (Except.ok c) → c.head_is_red = false :=
  c10_sentinel_always_black id [Op.ins 1] [] one_node_tree rbtree.init
    (by decide) (by decide)


/-! ### C7: rollback of a failed clone disposes every cloned record once -/

/-- The rotation-threaded destructive traversal disposes exactly the
records of the tree, in in-order sequence: each relink step preserves the
in-order list and each disposal emits its head. -/
theorem clear_and_dispose_helper_eq_inorder {α : Type} (t : RBNode α) :
    clear_and_dispose_helper t = RBNode.inorder t := by
  induction t using clear_and_dispose_helper.induct with
  | case1 => simp [clear_and_dispose_helper, RBNode.inorder]
  | case2 c lc ll lv lr v r ih =>
    rw [clear_and_dispose_helper, ih]
    simp [RBNode.inorder, List.append_assoc]
  | case3 c v r ih =>
    rw [clear_and_dispose_helper, ih]
    rfl

theorem clone_go_ok_perm {α ε : Type} [DecidableEq α] (cloner : α → Except ε α)
    (hl hr : CachePtr α) :
    ∀ (t : RBNode α) (d : Option Side) (ok : CloneOk α),
    clone_go cloner hl hr d t = .ok ok → ok.cloned.Perm (RBNode.inorder ok.t)
  | .nil, d, ok => by
    intro h
    simp only [clone_go, Except.ok.injEq] at h
    rw [← h]
    exact List.Perm.refl _
  | .node c l v r, d, ok => by
    intro h
    simp only [clone_go] at h
    cases hcl : cloner v with
    | error e => rw [hcl] at h; exact absurd h (by simp)
    | ok v' =>
      rw [hcl] at h
      dsimp only at h
      cases hl' : clone_go cloner hl hr (some .left) l with
      | error f => rw [hl'] at h; exact absurd h (by simp)
      | ok okl =>
        rw [hl'] at h
        cases hr' : clone_go cloner hl hr (some .right) r with
        | error f => rw [hr'] at h; exact absurd h (by simp)
        | ok okr =>
          rw [hr'] at h
          simp only [Except.ok.injEq] at h
          rw [← h]
          have ihl := clone_go_ok_perm cloner hl hr l (some .left) okl hl'
          have ihr := clone_go_ok_perm cloner hl hr r (some .right) okr hr'
          exact (List.Perm.cons v' (ihl.append ihr)).trans List.perm_middle.symm

theorem clone_go_err_perm {α ε : Type} [DecidableEq α] (cloner : α → Except ε α)
    (hl hr : CachePtr α) :
    ∀ (t : RBNode α) (d : Option Side) (f : CloneFail ε α),
    clone_go cloner hl hr d t = .error f → f.cloned.Perm (RBNode.inorder f.built)
  | .nil, d, f => by
    intro h
    exact absurd h (by simp [clone_go])
  | .node c l v r, d, f => by
    intro h
    simp only [clone_go] at h
    cases hcl : cloner v with
    | error e =>
      rw [hcl] at h
      simp only [Except.error.injEq] at h
      rw [← h]
      exact List.Perm.refl _
    | ok v' =>
      rw [hcl] at h
      dsimp only at h
      cases hl' : clone_go cloner hl hr (some .left) l with
      | error fl =>
        rw [hl'] at h
        simp only [Except.error.injEq] at h
        rw [← h]
        have ihl := clone_go_err_perm cloner hl hr l (some .left) fl hl'
        exact (List.Perm.cons v' ihl).trans (List.perm_append_singleton v' _).symm
      | ok okl =>
        rw [hl'] at h
        cases hr' : clone_go cloner hl hr (some .right) r with
        | error fr =>
          rw [hr'] at h
          simp only [Except.error.injEq] at h
          rw [← h]
          have ihl := clone_go_ok_perm cloner hl hr l (some .left) okl hl'
          have ihr := clone_go_err_perm cloner hl hr r (some .right) fr hr'
          exact (List.Perm.cons v' (ihl.append ihr)).trans List.perm_middle.symm
        | ok okr =>
          rw [hr'] at h
          exact absurd h (by simp)

theorem clone_go_err_source {α ε : Type} [DecidableEq α] (cloner : α → Except ε α)
    (hl hr : CachePtr α) :
    ∀ (t : RBNode α) (d : Option Side) (f : CloneFail ε α),
    clone_go cloner hl hr d t = .error f →
    ∃ v ∈ RBNode.inorder t, cloner v = .error f.err
  | .nil, d, f => by
    intro h
    exact absurd h (by simp [clone_go])
  | .node c l v r, d, f => by
    intro h
    simp only [clone_go] at h
    cases hcl : cloner v with
    | error e =>
      rw [hcl] at h
      simp only [Except.error.injEq] at h
      rw [← h]
      exact ⟨v, by simp [RBNode.inorder], hcl⟩
    | ok v' =>
      rw [hcl] at h
      dsimp only at h
      cases hl' : clone_go cloner hl hr (some .left) l with
      | error fl =>
        rw [hl'] at h
        simp only [Except.error.injEq] at h
        obtain ⟨w, hw, hwe⟩ := clone_go_err_source cloner hl hr l (some .left) fl hl'
        refine ⟨w, by simp [RBNode.inorder, hw], ?_⟩
        rw [← h]
        exact hwe
      | ok okl =>
        rw [hl'] at h
        cases hr' : clone_go cloner hl hr (some .right) r with
        | error fr =>
          rw [hr'] at h
          simp only [Except.error.injEq] at h
          obtain ⟨w, hw, hwe⟩ := clone_go_err_source cloner hl hr r (some .right) fr hr'
          refine ⟨w, by simp [RBNode.inorder, hw], ?_⟩
          rw [← h]
          exact hwe
        | ok okr =>
          rw [hr'] at h
          exact absurd h (by simp)

/-- C7: when the cloner fails partway through `clone`, the operation
returns the same error paired with the rollback's disposal sequence, that
sequence is a permutation of the records the cloner had successfully
produced (each disposed exactly once), and the error is one the cloner
itself raised on a record of the original tree.  No tree is returned on
this path, and the model's `clone` is a pure function of `s`, so the
original tree is unchanged. -/
theorem c7_clone_rollback {α ε : Type} [DecidableEq α] (s : rbtree α)
    (t : RBNode α) (cloner : α → Except ε α) (f : CloneFail ε α)
    (hroot : s.head_parent = HeadPtr.node t)
    (hgo : clone_go cloner s.head_left s.head_right none t = .error f) :
    clone s cloner = some (.error (f.err, clear_and_dispose_helper f.built))
    ∧ (clear_and_dispose_helper f.built).Perm f.cloned
    ∧ ∃ v ∈ RBNode.inorder t, cloner v = .error f.err := by
  refine ⟨?_, ?_, clone_go_err_source cloner _ _ t none f hgo⟩
  · cases t with
    | nil => exact absurd hgo (by simp [clone_go])
    | node c l v r =>
      unfold clone
      rw [hroot]
      dsimp only [root_tree]
      rw [hgo]
  · rw [clear_and_dispose_helper_eq_inorder]
    exact (clone_go_err_perm cloner _ _ t none f hgo).symm

/-- Witness for C7: cloning the reachable tree `{1, 2, 3}` with a cloner
that fails on 3 disposes exactly the two records cloned before the failure
(the clones of 2 and 1) and re-raises the failure. -/
theorem c7_clone_rollback_witness :
    clone t123 (fun v => if v = 3 then .error 7 else (Except.ok (v + 10) : Except Nat Nat))
      = some (.error (7, clear_and_dispose_helper
          (RBNode.node false (RBNode.node true RBNode.nil 11 RBNode.nil) 12 RBNode.nil)))
    ∧ (clear_and_dispose_helper
        (RBNode.node false (RBNode.node true RBNode.nil 11 RBNode.nil) 12 RBNode.nil)).Perm
        [12, 11]
    ∧ ∃ v ∈ RBNode.inorder (RBNode.node false (RBNode.node true RBNode.nil 1 RBNode.nil) 2
        (RBNode.node true RBNode.nil 3 RBNode.nil)),
        (fun v => if v = 3 then .error 7 else (Except.ok (v + 10) : Except Nat Nat)) v
          = .error 7 :=
  c7_clone_rollback t123
    (RBNode.node false (RBNode.node true RBNode.nil 1 RBNode.nil) 2
      (RBNode.node true RBNode.nil 3 RBNode.nil))
    (fun v => if v = 3 then .error 7 else (Except.ok (v + 10) : Except Nat Nat))
    ⟨7, RBNode.node false (RBNode.node true RBNode.nil 11 RBNode.nil) 12 RBNode.nil,
      [12, 11]⟩
    (by decide) (by rfl)

/-! ### C8: inserting an already-present key mutates nothing -/

theorem all_b_mem {α : Type} (p : α → Bool) :
    ∀ t : RBNode α, all_b p t = true → ∀ x ∈ RBNode.inorder t, p x = true
  | .nil => by intro _ x hx; simp [RBNode.inorder] at hx
  | .node c l v r => by
    intro h x hx
    simp only [all_b, Bool.and_eq_true] at h
    simp only [RBNode.inorder, List.mem_append, List.mem_cons] at hx
    rcases hx with hx | hx | hx
    · exact all_b_mem p l h.1.2 x hx
    · rw [hx]; exact h.1.1
    · exact all_b_mem p r h.2 x hx

/-- On a BST-ordered tree, the insertion descent stops at the unique record
whose key compares equal to the probe key. -/
theorem insert_pos_found {α κ : Type} [LinearOrder κ] (to_key : α → κ) :
    ∀ t : RBNode α, ordered to_key t = true → ∀ x ∈ RBNode.inorder t, ∀ k : κ,
    to_key x = k → ∀ p : Path α, insert_pos to_key k t p = .found x
  | .nil => by intro _ x hx; simp [RBNode.inorder] at hx
  | .node c l v r => by
    intro hord x hx k hk p
    simp only [ordered, Bool.and_eq_true] at hord
    obtain ⟨⟨⟨hall_l, hall_r⟩, hord_l⟩, hord_r⟩ := hord
    simp only [RBNode.inorder, List.mem_append, List.mem_cons] at hx
    rcases hx with hx | hx | hx
    · have hlt : to_key x < to_key v := by
        have := all_b_mem _ l hall_l x hx
        exact of_decide_eq_true this
      rw [insert_pos, if_pos (hk ▸ hlt)]
      exact insert_pos_found to_key l hord_l x hx k hk _
    · rw [insert_pos, if_neg (by rw [← hk, hx]; exact lt_irrefl _),
        if_neg (by rw [← hk, hx]; exact lt_irrefl _), hx]
    · have hlt : to_key v < to_key x := by
        have := all_b_mem _ r hall_r x hx
        exact of_decide_eq_true this
      rw [insert_pos, if_neg (by rw [← hk]; exact lt_asymm hlt),
        if_pos (hk ▸ hlt)]
      exact insert_pos_found to_key r hord_r x hx k hk _

/-- C8: inserting a record whose key compares equal to a key already linked
in a BST-ordered tree returns the position of the pre-existing record and
`false`, leaving the tree state untouched; `insert_for_key` with that key
returns the same pair for *every* factory, so the factory is never
invoked. -/
theorem c8_duplicate_insert_is_rejected {α κ : Type} [DecidableEq α] [LinearOrder κ]
    (to_key : α → κ) (s : rbtree α) (t : RBNode α) (v x : α)
    (hroot : s.head_parent = HeadPtr.node t)
    (hord : ordered to_key t = true)
    (hx : x ∈ RBNode.inorder t)
    (hk : to_key x = to_key v) :
    insert to_key s v = some (s, x, false)
    ∧ ∀ fn : Unit → α, insert_for_key to_key s (to_key v) fn = some (s, x, false) := by
  have hf := insert_pos_found to_key t hord x hx (to_key v) hk []
  constructor
  · unfold insert
    rw [hroot]
    dsimp only [root_tree]
    rw [hf]
  · intro fn
    unfold insert_for_key
    rw [hroot]
    dsimp only [root_tree]
    rw [hf]

/-- Witness for C8: re-inserting key 2 into the reachable tree `{1, 2, 3}`
fails and changes nothing, whatever the factory. -/
theorem c8_duplicate_insert_is_rejected_witness :
    insert id t123 2 = some (t123, 2, false)
    ∧ ∀ fn : Unit → Nat, insert_for_key id t123 2 fn = some (t123, 2, false) :=
  c8_duplicate_insert_is_rejected id t123
    (RBNode.node false (RBNode.node true RBNode.nil 1 RBNode.nil) 2
      (RBNode.node true RBNode.nil 3 RBNode.nil)) 2 2
    (by decide) (by decide) (by decide) (by decide)

/-! ### C9: erase — not-found is a no-op, found detaches exactly one record -/

theorem inorder_set_black {α : Type} (t : RBNode α) :
    RBNode.inorder (RBNode.set_black t) = RBNode.inorder t := by
  cases t <;> rfl

theorem plug_append {α : Type} :
    ∀ (p q : Path α) (t : RBNode α), plug t (p ++ q) = plug (plug t p) q
  | [], q, t => rfl
  | f :: p, q, t => by
    simp only [List.cons_append, plug]
    exact plug_append p q (fill t f)

/-- The in-order list of a rebuilt tree is the focused subtree's in-order
list between two fixed fragments determined by the path alone. -/
theorem plug_inorder {α : Type} :
    ∀ p : Path α, ∃ A B : List α, ∀ u : RBNode α,
    RBNode.inorder (plug u p) = A ++ RBNode.inorder u ++ B
  | [] => ⟨[], [], fun u => by simp [plug]⟩
  | f :: p => by
    obtain ⟨A, B, hAB⟩ := plug_inorder (α := α) p
    obtain ⟨sd, c, v, sib⟩ := f
    cases sd with
    | left =>
      refine ⟨A, v :: RBNode.inorder sib ++ B, fun u => ?_⟩
      rw [plug, hAB]
      simp [fill, RBNode.inorder]
    | right =>
      refine ⟨A ++ RBNode.inorder sib ++ [v], B, fun u => ?_⟩
      rw [plug, hAB]
      simp [fill, RBNode.inorder]

/-- On a BST-ordered tree the find descent reaches the unique record whose
key compares equal, and the returned zipper is a decomposition of the
tree. -/
theorem find_node_some {α κ : Type} [LinearOrder κ] (to_key : α → κ) :
    ∀ t : RBNode α, ordered to_key t = true → ∀ x ∈ RBNode.inorder t, ∀ k : κ,
    to_key x = k → ∀ p : Path α, ∃ zc zl zr q,
    find_node to_key k t p = some (.node zc zl x zr, q)
    ∧ plug (.node zc zl x zr) q = plug t p
  | .nil => by intro _ x hx; simp [RBNode.inorder] at hx
  | .node c l v r => by
    intro hord x hx k hk p
    simp only [ordered, Bool.and_eq_true] at hord
    obtain ⟨⟨⟨hall_l, hall_r⟩, hord_l⟩, hord_r⟩ := hord
    simp only [RBNode.inorder, List.mem_append, List.mem_cons] at hx
    rcases hx with hx | hx | hx
    · have hlt : to_key x < to_key v :=
        of_decide_eq_true (all_b_mem _ l hall_l x hx)
      obtain ⟨zc, zl, zr, q, hfind, hplug⟩ :=
        find_node_some to_key l hord_l x hx k hk (⟨.left, c, v, r⟩ :: p)
      exact ⟨zc, zl, zr, q, by rw [find_node, if_pos (hk ▸ hlt)]; exact hfind, hplug⟩
    · refine ⟨c, l, r, p, ?_, by rw [hx]⟩
      rw [find_node, if_neg (by rw [← hk, hx]; exact lt_irrefl _),
        if_neg (by rw [← hk, hx]; exact lt_irrefl _), hx]
    · have hlt : to_key v < to_key x :=
        of_decide_eq_true (all_b_mem _ r hall_r x hx)
      obtain ⟨zc, zl, zr, q, hfind, hplug⟩ :=
        find_node_some to_key r hord_r x hx k hk (⟨.right, c, v, l⟩ :: p)
      exact ⟨zc, zl, zr, q,
        by rw [find_node, if_neg (by rw [← hk]; exact lt_asymm hlt), if_pos (hk ▸ hlt)];
           exact hfind, hplug⟩

/-- On a BST-ordered tree the find descent misses exactly the absent
keys. -/
theorem find_node_none {α κ : Type} [LinearOrder κ] (to_key : α → κ) :
    ∀ t : RBNode α, ordered to_key t = true →
    ∀ k : κ, (∀ x ∈ RBNode.inorder t, to_key x ≠ k) →
    ∀ p : Path α, find_node to_key k t p = none
  | .nil => by intro _ k _ p; rfl
  | .node c l v r => by
    intro hord k habs p
    simp only [ordered, Bool.and_eq_true] at hord
    obtain ⟨⟨⟨hall_l, hall_r⟩, hord_l⟩, hord_r⟩ := hord
    by_cases h1 : k < to_key v
    · rw [find_node, if_pos h1]
      exact find_node_none to_key l hord_l k
        (fun x hx => habs x (by simp [RBNode.inorder, hx])) _
    · by_cases h2 : to_key v < k
      · rw [find_node, if_neg h1, if_pos h2]
        exact find_node_none to_key r hord_r k
          (fun x hx => habs x (by simp [RBNode.inorder, hx])) _
      · exact absurd (le_antisymm (not_lt.mp h1) (not_lt.mp h2))
          (habs v (by simp [RBNode.inorder]))

theorem split_min_isSome {α : Type} :
    ∀ (l : RBNode α) (c : Bool) (v : α) (r : RBNode α),
    (split_min (.node c l v r)).isSome = true
  | .nil, c, v, r => by simp [split_min]
  | .node lc ll lv lr, c, v, r => by
    have ih := split_min_isSome ll lc lv lr
    simp only [split_min]
    cases hs : split_min (.node lc ll lv lr) with
    | none => rw [hs] at ih; exact absurd ih (by simp)
    | some q => obtain ⟨sp, yc, yv, x⟩ := q; simp

/-- Lemma: `split_min` is a zipper decomposition: plugging the minimum node back in
restores the subtree. -/
theorem split_min_plug {α : Type} :
    ∀ (t : RBNode α) (sp : Path α) (yc : Bool) (yv : α) (x : RBNode α),
    split_min t = some (sp, yc, yv, x) → plug (.node yc .nil yv x) sp = t
  | .nil => by simp [split_min]
  | .node c .nil v r => by
    intro sp yc yv x h
    simp only [split_min, Option.some.injEq, Prod.mk.injEq] at h
    obtain ⟨hsp, hyc, hyv, hx⟩ := h
    rw [← hsp, ← hyc, ← hyv, ← hx]
    rfl
  | .node c (.node lc ll lv lr) v r => by
    intro sp yc yv x h
    simp only [split_min] at h
    cases hs : split_min (.node lc ll lv lr) with
    | none => rw [hs] at h; exact absurd h (by simp)
    | some q =>
      obtain ⟨sp2, yc2, yv2, x2⟩ := q
      rw [hs] at h
      simp only [Option.some.injEq, Prod.mk.injEq] at h
      obtain ⟨hsp, hyc, hyv, hx⟩ := h
      have ih := split_min_plug (.node lc ll lv lr) sp2 yc2 yv2 x2 hs
      rw [← hsp, ← hyc, ← hyv, ← hx, plug_append, ih]
      rfl

/-- Removing the minimum via `split_min` drops exactly the head of the
in-order list. -/
theorem split_min_inorder {α : Type} :
    ∀ (t : RBNode α) (sp : Path α) (yc : Bool) (yv : α) (x : RBNode α),
    split_min t = some (sp, yc, yv, x) →
    RBNode.inorder t = yv :: RBNode.inorder (plug x sp)
  | .nil => by simp [split_min]
  | .node c .nil v r => by
    intro sp yc yv x h
    simp only [split_min, Option.some.injEq, Prod.mk.injEq] at h
    obtain ⟨hsp, hyc, hyv, hx⟩ := h
    rw [← hsp, ← hyv, ← hx]
    rfl
  | .node c (.node lc ll lv lr) v r => by
    intro sp yc yv x h
    simp only [split_min] at h
    cases hs : split_min (.node lc ll lv lr) with
    | none => rw [hs] at h; exact absurd h (by simp)
    | some q =>
      obtain ⟨sp2, yc2, yv2, x2⟩ := q
      rw [hs] at h
      simp only [Option.some.injEq, Prod.mk.injEq] at h
      obtain ⟨hsp, hyc, hyv, hx⟩ := h
      have ih := split_min_inorder (.node lc ll lv lr) sp2 yc2 yv2 x2 hs
      rw [← hsp, ← hyv, ← hx, plug_append]
      have step : RBNode.inorder (RBNode.node c (RBNode.node lc ll lv lr) v r)
          = RBNode.inorder (RBNode.node lc ll lv lr) ++ v :: RBNode.inorder r := rfl
      rw [step, ih]
      simp [plug, fill, RBNode.inorder, List.cons_append]

theorem bh_node_parts {α : Type} {c : Bool} {l r : RBNode α} {v : α}
    (h : (black_height (.node c l v r)).isSome = true) :
    (black_height l).isSome = true ∧ (black_height r).isSome = true := by
  rw [black_height] at h
  cases hl : black_height l with
  | none => rw [hl] at h; exact absurd h (by simp)
  | some a =>
    cases hr : black_height r with
    | none => rw [hl, hr] at h; exact absurd h (by simp)
    | some b => exact ⟨by simp [hl], by simp [hr]⟩

theorem bh_fill {α : Type} {t : RBNode α} {f : Frame α}
    (h : (black_height (fill t f)).isSome = true) :
    (black_height t).isSome = true := by
  obtain ⟨sd, c, v, sib⟩ := f
  cases sd with
  | left => exact (bh_node_parts h).1
  | right => exact (bh_node_parts h).2

theorem bh_plug {α : Type} :
    ∀ (p : Path α) (t : RBNode α),
    (black_height (plug t p)).isSome = true → (black_height t).isSome = true
  | [], _ => fun h => h
  | f :: p, t => fun h => bh_fill (bh_plug p (fill t f) h)

theorem bh_black_ne_zero {α : Type} {l r : RBNode α} {v : α} :
    black_height (RBNode.node false l v r) ≠ some 0 := by
  intro h
  rw [black_height] at h
  cases hl : black_height l with
  | none => rw [hl] at h; simp at h
  | some a =>
    cases hr : black_height r with
    | none => rw [hl, hr] at h; simp at h
    | some b =>
      rw [hl, hr] at h
      dsimp only at h
      split at h
      · simp at h
      · simp at h

theorem bh_zero_shape {α : Type} {t : RBNode α} (h : black_height t = some 0) :
    t = .nil ∨ ∃ l v r, t = RBNode.node true l v r := by
  cases t with
  | nil => exact Or.inl rfl
  | node c l v r =>
    cases c with
    | true => exact Or.inr ⟨l, v, r, rfl⟩
    | false => exact absurd h bh_black_ne_zero

/-- In a tree with consistent black counts, a node with a null left child
has a right child whose own black height is zero. -/
theorem bh_left_nil_aux {α : Type} {c : Bool} {v : α} {r : RBNode α}
    (h : (black_height (RBNode.node c .nil v r)).isSome = true) :
    black_height r = some 0 := by
  simp only [black_height] at h
  cases hr : black_height r with
  | none => rw [hr] at h; simp at h
  | some b =>
    rw [hr] at h
    dsimp only at h
    split at h
    · next hb => rw [← hb]
    · simp at h

/-- A node with a null left child has a right child that is null or red. -/
theorem bh_left_nil {α : Type} {c : Bool} {v : α} {r : RBNode α}
    (h : (black_height (RBNode.node c .nil v r)).isSome = true) :
    r = .nil ∨ ∃ rl rv rr, r = RBNode.node true rl rv rr :=
  bh_zero_shape (bh_left_nil_aux h)

theorem bh_right_nil_aux {α : Type} {c : Bool} {v : α} {l : RBNode α}
    (h : (black_height (RBNode.node c l v .nil)).isSome = true) :
    black_height l = some 0 := by
  simp only [black_height] at h
  cases hl : black_height l with
  | none => rw [hl] at h; simp at h
  | some a =>
    rw [hl] at h
    dsimp only at h
    split at h
    · next ha => rw [ha]
    · simp at h

/-- Mirror image of `bh_left_nil`. -/
theorem bh_right_nil {α : Type} {c : Bool} {v : α} {l : RBNode α}
    (h : (black_height (RBNode.node c l v .nil)).isSome = true) :
    l = .nil ∨ ∃ ll lv lr, l = RBNode.node true ll lv lr :=
  bh_zero_shape (bh_right_nil_aux h)

/-- Lemma: `erase_fixup` on a red focus exits its loop at once and just blackens
the focus in place. -/
theorem erase_fixup_red {α : Type} :
    ∀ (p : Path α) (l : RBNode α) (v : α) (r : RBNode α),
    erase_fixup (.node true l v r) p
      = some (plug (RBNode.set_black (.node true l v r)) p)
  | [], _, _, _ => rfl
  | _ :: _, _, _, _ => rfl

theorem unlinked_reset {α : Type} [DecidableEq α] (n : node_fields α) :
    unlinked (reset_node n) = true := by
  simp [unlinked, reset_node]

/-- Under a consistent black count at the focused node, the structural part
of `erase_node` succeeds (the conditional fix-up either is skipped or
terminates immediately on a red `x`), and the rebuilt tree's in-order list
is the surrounding context around the focus's children — i.e. exactly the
focused record has been removed. -/
theorem erase_node_tree_spec {α : Type} (zc : Bool) (zl zr : RBNode α) (zv : α)
    (p : Path α)
    (hbh : (black_height (RBNode.node zc zl zv zr)).isSome = true) :
    ∃ tr, erase_node_tree zc zl zv zr p = some tr
    ∧ ∀ A B : List α,
        (∀ u, RBNode.inorder (plug u p) = A ++ RBNode.inorder u ++ B) →
        RBNode.inorder tr = A ++ (RBNode.inorder zl ++ RBNode.inorder zr) ++ B := by
  cases zl with
  | nil =>
    cases hc : zc with
    | true =>
      refine ⟨plug zr p, by simp [erase_node_tree], fun A B hctx => ?_⟩
      rw [hctx zr]
      simp [RBNode.inorder]
    | false =>
      cases zr with
      | nil =>
        refine ⟨plug RBNode.nil p, by simp [erase_node_tree], fun A B hctx => ?_⟩
        rw [hctx RBNode.nil]
        simp [RBNode.inorder]
      | node rc rl rv rr =>
        have hred := bh_left_nil (hc ▸ hbh)
        rcases hred with h | ⟨a, b, c, h⟩
        · exact absurd h (by simp)
        · obtain ⟨hrc, hrl, hrv, hrr⟩ := RBNode.node.inj h
          refine ⟨plug (RBNode.set_black (RBNode.node rc rl rv rr)) p, ?_, fun A B hctx => ?_⟩
          · rw [hrc]
            simp only [erase_node_tree]
            exact erase_fixup_red p rl rv rr
          · rw [hctx, inorder_set_black]
            simp [RBNode.inorder]
  | node lc ll lv lr =>
    cases zr with
    | nil =>
      cases hc : zc with
      | true =>
        refine ⟨plug (RBNode.node lc ll lv lr) p, by simp [erase_node_tree], fun A B hctx => ?_⟩
        rw [hctx]
        simp [RBNode.inorder]
      | false =>
        have hred := bh_right_nil (hc ▸ hbh)
        rcases hred with h | ⟨a, b, c, h⟩
        · exact absurd h (by simp)
        · obtain ⟨hlc, hll, hlv, hlr⟩ := RBNode.node.inj h
          refine ⟨plug (RBNode.set_black (RBNode.node lc ll lv lr)) p, ?_, fun A B hctx => ?_⟩
          · rw [hlc]
            simp only [erase_node_tree]
            exact erase_fixup_red p ll lv lr
          · rw [hctx, inorder_set_black]
            simp [RBNode.inorder]
    | node rc rl rv rr =>
      have hzr : (split_min (RBNode.node rc rl rv rr)).isSome = true :=
        split_min_isSome rl rc rv rr
      cases hsm : split_min (RBNode.node rc rl rv rr) with
      | none => rw [hsm] at hzr; exact absurd hzr (by simp)
      | some q =>
        obtain ⟨sp, yc, yv, x⟩ := q
        have hplug_zr := split_min_plug _ sp yc yv x hsm
        have hino_zr := split_min_inorder _ sp yc yv x hsm
        have hbh_zr : (black_height (RBNode.node rc rl rv rr)).isSome = true :=
          (bh_node_parts hbh).2
        have hbh_y : (black_height (RBNode.node yc .nil yv x)).isSome = true := by
          refine bh_plug sp _ ?_
          rw [hplug_zr]
          exact hbh_zr
        have hmid : ∀ u : RBNode α,
            plug u (sp ++ (⟨.right, zc, yv, RBNode.node lc ll lv lr⟩ : Frame α) :: p)
              = plug (RBNode.node zc (RBNode.node lc ll lv lr) yv (plug u sp)) p := by
          intro u
          rw [plug_append]
          rfl
        obtain ⟨A2, B2, hAB2⟩ := plug_inorder (α := α) sp
        cases hyc : yc with
        | true =>
          refine ⟨plug x (sp ++ (⟨.right, zc, yv, RBNode.node lc ll lv lr⟩ : Frame α) :: p),
            ?_, fun A B hctx => ?_⟩
          · simp [erase_node_tree, hsm, hyc]
          · rw [hmid x, hctx]
            have : RBNode.inorder (RBNode.node zc (RBNode.node lc ll lv lr) yv (plug x sp))
                = RBNode.inorder (RBNode.node lc ll lv lr) ++ yv :: RBNode.inorder (plug x sp) := rfl
            rw [this, ← hino_zr]
        | false =>
          cases x with
          | nil =>
            refine ⟨plug RBNode.nil
                (sp ++ (⟨.right, zc, yv, RBNode.node lc ll lv lr⟩ : Frame α) :: p),
              ?_, fun A B hctx => ?_⟩
            · simp [erase_node_tree, hsm, hyc]
            · rw [hmid RBNode.nil, hctx]
              have : RBNode.inorder (RBNode.node zc (RBNode.node lc ll lv lr) yv (plug RBNode.nil sp))
                  = RBNode.inorder (RBNode.node lc ll lv lr) ++ yv :: RBNode.inorder (plug RBNode.nil sp) := rfl
              rw [this, ← hino_zr]
          | node xc xl xv xr =>
            have hxred := bh_left_nil (hyc ▸ hbh_y)
            rcases hxred with h | ⟨a, b, c, h⟩
            · exact absurd h (by simp)
            · obtain ⟨hxc, hxl, hxv, hxr⟩ := RBNode.node.inj h
              refine ⟨plug (RBNode.set_black (RBNode.node xc xl xv xr))
                  (sp ++ (⟨.right, zc, yv, RBNode.node lc ll lv lr⟩ : Frame α) :: p),
                ?_, fun A B hctx => ?_⟩
              · simp only [erase_node_tree, hsm, hyc, Bool.false_eq_true, if_false]
                rw [hxc]
                exact erase_fixup_red _ xl xv xr
              · rw [hmid (RBNode.set_black (RBNode.node xc xl xv xr)), hctx]
                have h1 : RBNode.inorder (plug (RBNode.set_black (RBNode.node xc xl xv xr)) sp)
                    = RBNode.inorder (plug (RBNode.node xc xl xv xr) sp) := by
                  rw [hAB2, hAB2, inorder_set_black]
                have h2 : RBNode.inorder (RBNode.node zc (RBNode.node lc ll lv lr) yv
                      (plug (RBNode.set_black (RBNode.node xc xl xv xr)) sp))
                    = RBNode.inorder (RBNode.node lc ll lv lr) ++ yv ::
                      RBNode.inorder (plug (RBNode.set_black (RBNode.node xc xl xv xr)) sp) := rfl
                rw [h2, h1, ← hino_zr]

theorem erase_node_some_of_tree {α : Type} [DecidableEq α] (s : rbtree α)
    {zc : Bool} {zl zr tr : RBNode α} {zv : α} {p : Path α}
    (htr : erase_node_tree zc zl zv zr p = some tr) :
    ∃ s', erase_node s zc zl zv zr p = some s' ∧ tree_of s' = tr := by
  cases tr with
  | nil =>
    unfold erase_node
    rw [htr]
    exact ⟨_, rfl, rfl⟩
  | node c l v r =>
    unfold erase_node
    rw [htr]
    exact ⟨_, rfl, rfl⟩

/-- C9: on a tree satisfying the data-model invariants, erasing an absent
key returns the null reference and leaves the state untouched, while
erasing a present key returns exactly the record holding it, with its
linkage fields reset to the unlinked state, and the remaining in-order
contents are the original ones with that single record removed. -/
theorem c9_erase_found_and_not_found {α κ : Type} [DecidableEq α] [LinearOrder κ]
    (to_key : α → κ) (s : rbtree α) (t : RBNode α)
    (hroot : s.head_parent = HeadPtr.node t)
    (hvalid : rb_valid to_key t = true) (k : κ) :
    ((∀ x ∈ RBNode.inorder t, to_key x ≠ k) → erase to_key s k = some (s, none))
    ∧ ∀ x ∈ RBNode.inorder t, to_key x = k →
        ∃ s' nf l1 l2,
          erase to_key s k = some (s', some (x, nf))
          ∧ unlinked nf = true
          ∧ RBNode.inorder t = l1 ++ x :: l2
          ∧ RBNode.inorder (tree_of s') = l1 ++ l2 := by
  have hord : ordered to_key t = true := by
    have := hvalid
    simp only [rb_valid, Bool.and_eq_true] at this
    exact this.1
  have hbh : (black_height t).isSome = true := by
    have h := hvalid
    simp only [rb_valid, rb_structural_invariant, Bool.and_eq_true] at h
    exact h.2.2
  constructor
  · intro habs
    unfold erase
    rw [hroot]
    dsimp only [root_tree]
    rw [find_node_none to_key t hord k habs []]
  · intro x hx hk
    obtain ⟨zc, zl, zr, q, hfind, hplug⟩ := find_node_some to_key t hord x hx k hk []
    have hplug2 : plug (RBNode.node zc zl x zr) q = t := hplug
    have hbh_z : (black_height (RBNode.node zc zl x zr)).isSome = true := by
      refine bh_plug q _ ?_
      rw [hplug2]
      exact hbh
    obtain ⟨tr, htr, hspec⟩ := erase_node_tree_spec zc zl zr x q hbh_z
    obtain ⟨s', hsome, htree⟩ := erase_node_some_of_tree s htr
    obtain ⟨A, B, hAB⟩ := plug_inorder (α := α) q
    have hino_t : RBNode.inorder t
        = A ++ (RBNode.inorder zl ++ x :: RBNode.inorder zr) ++ B := by
      rw [← hplug2, hAB]
      rfl
    refine ⟨s', ⟨CachePtr.null, CachePtr.null, CachePtr.null, zc⟩,
      A ++ RBNode.inorder zl, RBNode.inorder zr ++ B, ?_, by simp [unlinked], ?_, ?_⟩
    · simp only [erase, hroot, root_tree, hfind, hsome]
      rfl
    · rw [hino_t]
      simp [List.append_assoc]
    · rw [htree, hspec A B hAB]
      simp [List.append_assoc]

/-- Witness for C9 on the reachable valid tree `{1, 2, 3}`: key 7 is
absent, key 1 is present. -/
theorem c9_erase_witness :
    ((∀ x ∈ RBNode.inorder (RBNode.node false (RBNode.node true RBNode.nil 1 RBNode.nil) 2
        (RBNode.node true RBNode.nil 3 RBNode.nil)), id x ≠ 7) →
      erase id t123 7 = some (t123, none))
    ∧ ∀ x ∈ RBNode.inorder (RBNode.node false (RBNode.node true RBNode.nil 1 RBNode.nil) 2
        (RBNode.node true RBNode.nil 3 RBNode.nil)), id x = 7 →
        ∃ s' nf l1 l2,
          erase id t123 7 = some (s', some (x, nf))
          ∧ unlinked nf = true
          ∧ RBNode.inorder (RBNode.node false (RBNode.node true RBNode.nil 1 RBNode.nil) 2
              (RBNode.node true RBNode.nil 3 RBNode.nil)) = l1 ++ x :: l2
          ∧ RBNode.inorder (tree_of s') = l1 ++ l2 :=
  c9_erase_found_and_not_found id t123
    (RBNode.node false (RBNode.node true RBNode.nil 1 RBNode.nil) 2
      (RBNode.node true RBNode.nil 3 RBNode.nil))
    (by decide) (by decide) 7

end Rbt
